import Mathlib

/-
Shallow embedding of the YuiOss repository (src/yui_oss/manager.py and
src/yui_oss/console.py).  Python strings are modelled as lists of
characters; the platform is POSIX, so the Python value os.sep coincides
with OssFileManager.SEP, both being the single character '/'.
os.path.normpath is the posixpath.normpath algorithm of CPython.
-/

namespace YuiOss

/-- PStr models a Python str as its list of characters. -/
abbrev PStr := List Char

/-- S converts a Lean string literal to the PStr model. -/
def S (s : String) : PStr := s.data

/-- sep models OssFileManager.SEP = '/' (equal to os.sep on POSIX). -/
def sep : Char := '/'

/-- dot models the path component ".". -/
def dot : PStr := ['.']

/-- dotdot models the path component "..". -/
def dotdot : PStr := ['.', '.']

/-- isPySpace models the whitespace test used by Python str.strip()
(restricted to the ASCII whitespace characters, which is adequate here). -/
def isPySpace (c : Char) : Bool :=
  c = ' ' || c = '\t' || c = '\n' || c = '\r' || c = '\x0b' || c = '\x0c'

/-- pyStrip models Python str.strip(): drop whitespace from both ends. -/
def pyStrip (s : PStr) : PStr :=
  ((s.dropWhile isPySpace).reverse.dropWhile isPySpace).reverse

/-- endsWithSep models s.endswith('/'). -/
def endsWithSep (s : PStr) : Bool := s.getLast? = some sep

/-- startsWithSep models s.startswith('/'). -/
def startsWithSep (s : PStr) : Bool := s.head? = some sep

/-- splitAux returns the first '/'-free chunk of the string together with the
list of the remaining chunks; it is the workhorse of pySplit. -/
def splitAux (c : Char) : PStr → PStr × List PStr
  | [] => ⟨[], []⟩
  | a :: r =>
    let p := splitAux c r
    if a = c then ⟨[], p.1 :: p.2⟩ else ⟨a :: p.1, p.2⟩

/-- pySplit models Python s.split(c) for a single-character separator:
all chunks between occurrences of c, empty chunks preserved,
and the empty string splits to a single empty chunk. -/
def pySplit (c : Char) (s : PStr) : List PStr :=
  (splitAux c s).1 :: (splitAux c s).2

/-- joinSep models Python '/'.join(parts). -/
def joinSep : List PStr → PStr
  | [] => []
  | [s] => s
  | s :: t :: r => s ++ sep :: joinSep (t :: r)

/-- pyStripChar models Python s.strip('/'): drop the character from both
ends of the string. -/
def pyStripChar (c : Char) (s : PStr) : PStr :=
  ((s.dropWhile (· = c)).reverse.dropWhile (· = c)).reverse

/-- sepRep is the string made of k separator characters. -/
def sepRep (k : Nat) : PStr := List.replicate k sep

/-- replaceAll models Python s.replace(old, new) for a nonempty old:
scan left to right and replace every non-overlapping occurrence.  The
sources only call it with a prefix ending in the separator, hence old is
never empty; for completeness an empty old leaves the string unchanged. -/
def replaceAll (old new : PStr) (s : PStr) : PStr :=
  if h : old = [] then s
  else
    match s with
    | [] => []
    | a :: r =>
      if old.isPrefixOf (a :: r) then new ++ replaceAll old new ((a :: r).drop old.length)
      else a :: replaceAll old new r
termination_by s.length
decreasing_by
  · have hpos : 0 < old.length := List.length_pos.mpr h
    simp only [List.length_drop, List.length_cons]
    omega
  · simp


/-- initialSlashes models the initial_slashes computation of
posixpath.normpath: 0 when the path is relative, 2 when it starts with
exactly two slashes, 1 otherwise. -/
def initialSlashes (s : PStr) : Nat :=
  if (sepRep 1).isPrefixOf s then
    (if (sepRep 2).isPrefixOf s ∧ ¬ (sepRep 3).isPrefixOf s then 2 else 1)
  else 0

/-- collapseStep models one iteration of the component loop of
posixpath.normpath: skip empty and "." components, append a regular
component, and let ".." pop the last stored component except when the path
is relative with an empty stack or the stack already ends in "..". -/
def collapseStep (abs : Bool) (acc : List PStr) (comp : PStr) : List PStr :=
  if comp = [] ∨ comp = dot then acc
  else if comp ≠ dotdot ∨ (abs = false ∧ acc = []) ∨ acc.getLast? = some dotdot then
    acc ++ [comp]
  else if acc ≠ [] then acc.dropLast
  else acc

/-- collapseComps models the full component loop of posixpath.normpath. -/
def collapseComps (abs : Bool) (comps : List PStr) : List PStr :=
  comps.foldl (collapseStep abs) []

/-- normpath models posixpath.normpath (os.path.normpath on POSIX). -/
def normpath (s : PStr) : PStr :=
  if s = [] then dot
  else
    let k := initialSlashes s
    let cs := collapseComps (decide (k ≠ 0)) (pySplit sep s)
    let r := sepRep k ++ joinSep cs
    if r = [] then dot else r

/-- dirDesignator models the test remote_path.strip() in ['', '.', '..']
from OssFileManager. -/
def dirDesignator (s : PStr) : Bool :=
  pyStrip s = [] || pyStrip s = dot || pyStrip s = dotdot

/-- norm_path models OssFileManager.norm_path: strip whitespace, record
whether the input indicated a directory, normalize with os.path.normpath,
return the bare separator for '' or '/', and re-append the trailing
separator for directory inputs. -/
def norm_path (p : PStr) : PStr :=
  let s := pyStrip p
  let isdir := endsWithSep s || dirDesignator s
  let n := normpath s
  if n = [] ∨ n = [sep] then [sep]
  else if isdir then n ++ [sep] else n

/-- is_dir models OssFileManager.is_dir: directory designators are
directories, otherwise a path is a directory iff its normalized form ends
with the separator. -/
def is_dir (p : PStr) : Bool :=
  if dirDesignator p then true else endsWithSep (norm_path p)

/-! Console layer: the cd command of console.py (class Yui). -/

/-- CdResult is the outcome of the cd command: ok carries the new persisted
root, rejected means an error message was printed and the root (and the
persisted attribute file) was left untouched. -/
inductive CdResult
  | ok (newRoot : PStr)
  | rejected
deriving DecidableEq

/-- cdResolveRoot models the segment-resolution part of Yui.cd: normalize
the path, make it root-relative unless absolute, split into segments and
resolve "." and ".." segment-wise ("." skipped, ".." pops the last stored
segment when present, else a no-op). -/
def cdResolveRoot (root path0 : PStr) : PStr :=
  let path := norm_path path0
  let tmpRoot := if startsWithSep path then path.tail else root ++ path
  let rootSegs := pySplit sep tmpRoot
  let newRootSegs := rootSegs.foldl
    (fun acc seg =>
      if seg = dot then acc
      else if seg = dotdot then acc.dropLast
      else acc ++ [seg]) []
  joinSep newRootSegs

/-- cd models Yui.cd: with no argument the root resets to the store root;
otherwise the argument must be directory-shaped according to the purely
syntactic is_dir test (no store query happens anywhere in cd), and on
success the root is recomputed with cdResolveRoot and persisted. -/
def cd (root : PStr) (args : List PStr) : CdResult :=
  match args with
  | [] => .ok []
  | path :: _ =>
    if ¬ is_dir path then .rejected
    else .ok (cdResolveRoot root path)

/-! Store layer: operations of OssFileManager over an abstract object
store.  The store is modelled as the list of object keys in listing
(lexicographic) order; oss2.ObjectIterator(bucket, root, '') is modelled as
the sublist of keys having the root as a prefix.  Each store call returns
an HTTP status; an Option Nat oracle gives the status of each call, where
none models the call raising an exception instead of returning. -/

/-- StoreCall records one network call issued to the object store, or one
local filesystem mutation issued by download. -/
inductive StoreCall
  | copyObj (src dst : PStr)
  | deleteObj (key : PStr)
  | getObj (key : PStr) (destLocal : PStr)
  | mkdirCall (destLocal : PStr)
deriving DecidableEq

/-- CbEvent records one invocation of a user callback.  error3 records the
on_error(src, dest, res) calls of copy_single and move_single that pass
only three arguments, omitting the operation name. -/
inductive CbEvent
  | success (op : PStr) (src : PStr) (dst : Option PStr)
  | error (op : PStr) (src : PStr) (dst : Option PStr)
  | error3 (src dst : PStr)
deriving DecidableEq

/-- YuiErr is the kind of the wrapped exception a public operation raises
(the Yui*Exception classes of exception.py). -/
inductive YuiErr
  | uploadE | downloadE | deleteE | copyE | moveE | isExistE | listDirE
deriving DecidableEq

/-- Trace collects the store calls issued and the callback invocations
performed by one operation, each in program order. -/
structure Trace where
  calls : List StoreCall
  events : List CbEvent
deriving DecidableEq

/-- Trace.append concatenates two traces. -/
def Trace.append (t u : Trace) : Trace := ⟨t.calls ++ u.calls, t.events ++ u.events⟩

/-- listAll models oss2.ObjectIterator(bucket, root, ''): all keys of the
store that have the given root as a prefix, in listing order. -/
def listAll (store : List PStr) (root : PStr) : List PStr :=
  store.filter (fun k => root.isPrefixOf k)

/-- is_exist models OssFileManager.is_exist: normalize the path and ask the
store whether the object exists (Bucket.object_exists is membership of the
key in the store). -/
def is_exist (store : List PStr) (remote : PStr) : Bool :=
  norm_path remote ∈ store

/-- delEvent is the callback routing of delete_single: error for a status
of at least 400, success otherwise; delete passes None as destination. -/
def delEvent (st : Nat) (rem : PStr) : CbEvent :=
  if 400 ≤ st then .error (S "delete") rem none else .success (S "delete") rem none

/-- runDeleteLoop models the per-object loop of OssFileManager.delete:
each key gets one delete_object call; a returned status is routed to the
error or success callback and the loop continues; a raised exception (the
none oracle answer) aborts the remaining walk.  The Bool is true when the
walk aborted. -/
def runDeleteLoop (delSt : PStr → Option Nat) : List PStr → Trace × Bool
  | [] => ⟨⟨[], []⟩, false⟩
  | k :: rest =>
    match delSt k with
    | none => ⟨⟨[.deleteObj k], []⟩, true⟩
    | some st =>
      let r := runDeleteLoop delSt rest
      ⟨⟨.deleteObj k :: r.1.calls, delEvent st k :: r.1.events⟩, r.2⟩

/-- deleteOp models OssFileManager.delete: normalize, then either walk the
reverse of the recursive listing (recursive case), raise YuiDeleteException
for a directory without the recursive flag, or delete the single object;
every raised exception surfaces wrapped as YuiDeleteException. -/
def deleteOp (store : List PStr) (delSt : PStr → Option Nat)
    (remote : PStr) (recursive : Bool) : Trace × Option YuiErr :=
  let rem := norm_path remote
  if is_dir rem then
    if recursive then
      let r := runDeleteLoop delSt (listAll store rem).reverse
      ⟨r.1, if r.2 then some .deleteE else none⟩
    else ⟨⟨[], []⟩, some .deleteE⟩
  else
    let r := runDeleteLoop delSt [rem]
    ⟨r.1, if r.2 then some .deleteE else none⟩

/-- copy_single models the inner copy_single of OssFileManager.copy: one
copy_object call; on a status of at least 400 on_error is invoked with
three arguments (no operation name), otherwise on_success is invoked with
the operation name "copy". -/
def copy_single (copySt : PStr → PStr → Option Nat) (src dst : PStr) : Trace × Bool :=
  match copySt src dst with
  | none => ⟨⟨[.copyObj src dst], []⟩, true⟩
  | some st =>
    ⟨⟨[.copyObj src dst],
      [if 400 ≤ st then .error3 src dst else .success (S "copy") src (some dst)]⟩, false⟩

/-- parentPre models the prefix computation shared by copy and move:
the separator-joined parent segments of the source followed by the
separator (the bare separator when the source sits at the store root). -/
def parentPre (src : PStr) : PStr :=
  joinSep ((pySplit sep (pyStripChar sep src)).dropLast) ++ [sep]

/-- destKey models the per-descendant destination computation of copy and
move: when the source parent prefix is the bare separator the destination
is prepended to the full key, otherwise every occurrence of the parent
prefix in the key is replaced by the destination (Python str.replace). -/
def destKey (src dst k : PStr) : PStr :=
  if parentPre src = [sep] then dst ++ k else replaceAll (parentPre src) dst k

/-- cpLoop models the per-descendant loop of OssFileManager.copy. -/
def cpLoop (copySt : PStr → PStr → Option Nat) (src dst : PStr) :
    List PStr → Trace × Bool
  | [] => ⟨⟨[], []⟩, false⟩
  | k :: rest =>
    let s := copy_single copySt k (destKey src dst k)
    if s.2 then ⟨s.1, true⟩
    else
      let r := cpLoop copySt src dst rest
      ⟨s.1.append r.1, r.2⟩

/-- copyOp models OssFileManager.copy: a directory source requires a
directory destination (the code raises YuiMoveException there) that is not
a sub-path of the source, and walks the recursive listing; a single object
is copied directly, and when the destination is directory-shaped it is
rewritten by unconditionally replacing the source's parent prefix with the
destination (the code has no bare-separator special case here, so a
top-level single object self-copies).  All raised exceptions surface as
YuiCopyException. -/
def copyOp (store : List PStr) (copySt : PStr → PStr → Option Nat)
    (remote_src remote_dest : PStr) : Trace × Option YuiErr :=
  let src := norm_path remote_src
  let dst := norm_path remote_dest
  if is_dir src then
    if ¬ is_dir dst then ⟨⟨[], []⟩, some .copyE⟩
    else if src.isPrefixOf dst then ⟨⟨[], []⟩, some .copyE⟩
    else
      let r := cpLoop copySt src dst (listAll store src)
      ⟨r.1, if r.2 then some .copyE else none⟩
  else
    let dst2 := if is_dir dst then replaceAll (parentPre src) dst src else dst
    let r := copy_single copySt src dst2
    ⟨r.1, if r.2 then some .copyE else none⟩

/-- move_single models the inner move_single of OssFileManager.move: a
copy_object call whose failing status fires on_error with three arguments
and whose success fires nothing, followed unconditionally by a
delete_object call of the source routed to on_error or on_success with the
operation name "move". -/
def move_single (copySt : PStr → PStr → Option Nat) (delSt : PStr → Option Nat)
    (old new : PStr) : Trace × Bool :=
  match copySt old new with
  | none => ⟨⟨[.copyObj old new], []⟩, true⟩
  | some st1 =>
    let e1 : List CbEvent := if 400 ≤ st1 then [.error3 old new] else []
    match delSt old with
    | none => ⟨⟨[.copyObj old new, .deleteObj old], e1⟩, true⟩
    | some st2 =>
      let e2 : CbEvent :=
        if 400 ≤ st2 then .error (S "move") old (some new)
        else .success (S "move") old (some new)
      ⟨⟨[.copyObj old new, .deleteObj old], e1 ++ [e2]⟩, false⟩

/-- mvLoop models the per-descendant loop of OssFileManager.move. -/
def mvLoop (copySt : PStr → PStr → Option Nat) (delSt : PStr → Option Nat)
    (src dst : PStr) : List PStr → Trace × Bool
  | [] => ⟨⟨[], []⟩, false⟩
  | k :: rest =>
    let s := move_single copySt delSt k (destKey src dst k)
    if s.2 then ⟨s.1, true⟩
    else
      let r := mvLoop copySt delSt src dst rest
      ⟨s.1.append r.1, r.2⟩

/-- moveOp models OssFileManager.move: same resolution rules as copy
(including the unconditional parent-prefix replace for a single object
with a directory-shaped destination), with move_single (copy of the pair
then delete of the source) per resolved pair.  All raised exceptions
surface as YuiMoveException. -/
def moveOp (store : List PStr) (copySt : PStr → PStr → Option Nat)
    (delSt : PStr → Option Nat) (remote_old remote_new : PStr) :
    Trace × Option YuiErr :=
  let old := norm_path remote_old
  let new := norm_path remote_new
  if is_dir old then
    if ¬ is_dir new then ⟨⟨[], []⟩, some .moveE⟩
    else if old.isPrefixOf new then ⟨⟨[], []⟩, some .moveE⟩
    else
      let r := mvLoop copySt delSt old new (listAll store old)
      ⟨r.1, if r.2 then some .moveE else none⟩
  else
    let new2 := if is_dir new then replaceAll (parentPre old) new old else new
    let r := move_single copySt delSt old new2
    ⟨r.1, if r.2 then some .moveE else none⟩

/-! Download: OssFileManager.download with its inner download_single.
The local filesystem is modelled as the list of existing directories in
normalized absolute form (os.path.normpath without trailing separator);
os.path.abspath on an already-absolute path is os.path.normpath.  Local
file writes by get_object_to_file are not tracked, only directory
creations by os.mkdir. -/

/-- fsIsdir models os.path.isdir: the normalized path is an existing
directory. -/
def fsIsdir (fs : List PStr) (p : PStr) : Bool := normpath p ∈ fs

/-- parentDir is the parent of a normalized absolute path of depth at
least two, used to decide whether os.mkdir can succeed. -/
def parentDir (p : PStr) : PStr := joinSep ((pySplit sep p).dropLast)

/-- mkdirFS models os.mkdir: fails (raises) when the directory already
exists or its parent does not, otherwise records the new directory. -/
def mkdirFS (fs : List PStr) (p : PStr) : Option (List PStr) :=
  let d := normpath p
  if fsIsdir fs d then none
  else if ¬ fsIsdir fs (parentDir d) then none
  else some (fs ++ [d])

/-- lastSegOf models rem.strip('/').split('/')[-1], the base name of a
remote key. -/
def lastSegOf (rem : PStr) : PStr :=
  ((pySplit sep (pyStripChar sep rem)).getLast?).getD []

/-- download_single models the inner download_single of
OssFileManager.download: the local destination is loc plus the base name
of the remote when loc is an existing local directory, else loc itself,
with a trailing separator for a directory-shaped remote; a directory
remote is materialized by os.mkdir with the pseudo-result "mkdir" that is
never compared against 400 and always routes to the success callback; a
file remote is fetched and routed by status.  Callbacks receive loc, not
the computed destination. -/
def download_single (getSt : PStr → PStr → Option Nat) (fs : List PStr)
    (rem loc : PStr) : Trace × List PStr × Bool :=
  let destLoc0 := if fsIsdir fs loc then loc ++ sep :: lastSegOf rem else loc
  let destLoc := destLoc0 ++ (if is_dir rem then [sep] else [])
  if is_dir rem then
    match mkdirFS fs destLoc with
    | none => ⟨⟨[.mkdirCall destLoc], []⟩, fs, true⟩
    | some fs2 =>
      ⟨⟨[.mkdirCall destLoc], [.success (S "download") rem (some loc)]⟩, fs2, false⟩
  else
    match getSt rem destLoc with
    | none => ⟨⟨[.getObj rem destLoc], []⟩, fs, true⟩
    | some st =>
      ⟨⟨[.getObj rem destLoc],
        [if 400 ≤ st then .error (S "download") rem (some loc)
         else .success (S "download") rem (some loc)]⟩, fs, false⟩

/-- dlLoopDest models the per-descendant local destination of the
recursive download loop: os.path.normpath of the local root joined with
the separator-joined parent segments of the descendant key (the full key
minus its last segment). -/
def dlLoopDest (locRoot keyK : PStr) : PStr :=
  normpath (locRoot ++ sep :: joinSep ((pySplit sep (pyStripChar sep keyK)).dropLast))

/-- dlLoop models the per-descendant loop of OssFileManager.download. -/
def dlLoop (getSt : PStr → PStr → Option Nat) (locRoot : PStr) (fs : List PStr) :
    List PStr → Trace × List PStr × Bool
  | [] => ⟨⟨[], []⟩, fs, false⟩
  | k :: rest =>
    let s := download_single getSt fs k (dlLoopDest locRoot k)
    if s.2.2 then ⟨s.1, s.2.1, true⟩
    else
      let r := dlLoop getSt locRoot s.2.1 rest
      ⟨s.1.append r.1, r.2⟩

/-- downloadOp models OssFileManager.download: absolutize the local path,
normalize the remote, run download_single on the pair, then, for a
directory-shaped remote with the recursive flag, walk the full recursive
listing with per-descendant destinations from dlLoopDest.  All raised
exceptions surface as YuiDownloadException. -/
def downloadOp (store : List PStr) (getSt : PStr → PStr → Option Nat)
    (remote local0 : PStr) (fs : List PStr) (recursive : Bool) :
    Trace × List PStr × Option YuiErr :=
  let locRoot := normpath local0
  let rem := norm_path remote
  let s := download_single getSt fs rem locRoot
  if s.2.2 then ⟨s.1, s.2.1, some .downloadE⟩
  else if is_dir rem && recursive then
    let r := dlLoop getSt locRoot s.2.1 (listAll store rem)
    ⟨s.1.append r.1, r.2.1, if r.2.2 then some .downloadE else none⟩
  else ⟨s.1, s.2.1, none⟩

/-- Modelled from the spec: the destination rule the specification states
for recursive download (section 4.4) — strip the downloaded directory's
own key prefix from the descendant key and re-root the remainder under the
local destination directory (the local root joined with the base name of
the downloaded directory).  This definition follows the words of the spec
and exists to be compared with the code's dlLoopDest/download_single
computation. -/
def spec_download_dest (locRoot remote keyK : PStr) : PStr :=
  locRoot ++ sep :: lastSegOf remote ++ sep :: keyK.drop remote.length

/-- copyDests extracts the destination keys of the copy calls of a trace,
in order. -/
def copyDests (t : Trace) : List PStr :=
  t.calls.filterMap (fun c =>
    match c with
    | .copyObj _ d => some d
    | _ => none)

/-- delEventOf is the callback event delete_single produces for a key
whose delete_object call returns a status. -/
def delEventOf (delSt : PStr → Option Nat) (k : PStr) : CbEvent :=
  delEvent ((delSt k).getD 0) k

/-- cpEventOf is the callback event copy_single produces for a descendant
key inside the directory walk of copy. -/
def cpEventOf (copySt : PStr → PStr → Option Nat) (src dst k : PStr) : CbEvent :=
  if 400 ≤ (copySt k (destKey src dst k)).getD 0 then .error3 k (destKey src dst k)
  else .success (S "copy") k (some (destKey src dst k))

/-- mvCallsOf is the pair of store calls move_single issues for a
descendant key inside the directory walk of move: the copy of the pair
followed by the delete of the source. -/
def mvCallsOf (src dst k : PStr) : List StoreCall :=
  [.copyObj k (destKey src dst k), .deleteObj k]

/-- mvEventsOf is the list of callback events move_single produces for a
descendant key inside the directory walk of move when both store calls
return a status: a three-argument error when the copy status is at least
400, then the error or success routing of the delete status. -/
def mvEventsOf (copySt : PStr → PStr → Option Nat) (delSt : PStr → Option Nat)
    (src dst k : PStr) : List CbEvent :=
  (if 400 ≤ (copySt k (destKey src dst k)).getD 0
   then [CbEvent.error3 k (destKey src dst k)] else []) ++
  [if 400 ≤ (delSt k).getD 0 then CbEvent.error (S "move") k (some (destKey src dst k))
   else CbEvent.success (S "move") k (some (destKey src dst k))]

/-- CleanSeg states that a path component produced by posixpath.normpath
is nonempty, not the "." component and free of separators. -/
def CleanSeg (c : PStr) : Prop := c ≠ [] ∧ c ≠ dot ∧ sep ∉ c

/-- GoodAcc is the invariant of the component stack of posixpath.normpath:
every entry is clean, the ".." entries form a prefix of the stack, and an
absolute path never stacks "..". -/
def GoodAcc (abs : Bool) (acc : List PStr) : Prop :=
  (∀ c ∈ acc, CleanSeg c) ∧
  (∃ m rest, acc = List.replicate m dotdot ++ rest ∧ dotdot ∉ rest) ∧
  (abs = true → dotdot ∉ acc)

/-- NormOutShape describes the non-degenerate outputs of norm_path: some
initial separators, a nonempty separator-joined list of clean components
whose ".." entries form a leading run only for relative paths, and an
optional trailing separator. -/
def NormOutShape (O : PStr) : Prop :=
  ∃ k cs t, O = sepRep k ++ joinSep cs ++ t ∧ k ≤ 2 ∧ cs ≠ [] ∧
    (∀ c ∈ cs, CleanSeg c) ∧
    (∃ m rest, cs = List.replicate m dotdot ++ rest ∧ dotdot ∉ rest) ∧
    (k ≠ 0 → dotdot ∉ cs) ∧ (t = [] ∨ t = [sep])

end YuiOss

namespace YuiOss

/-! Loop lemmas shared by the per-object walk claims. -/

/-- runDeleteLoop_total: when every delete_object call returns a status,
the walk visits every key and routes each status, never aborting. -/
theorem runDeleteLoop_total (delSt : PStr → Option Nat) :
    ∀ ks : List PStr, (∀ k ∈ ks, (delSt k).isSome = true) →
    runDeleteLoop delSt ks =
      ⟨⟨ks.map StoreCall.deleteObj, ks.map (delEventOf delSt)⟩, false⟩ := by
  intro ks
  induction ks with
  | nil => intro _; rfl
  | cons k rest ih =>
    intro h
    obtain ⟨st, hst⟩ := Option.isSome_iff_exists.mp (h k (by simp))
    have ihr := ih (fun j hj => h j (by simp [hj]))
    simp only [runDeleteLoop, hst, ihr, List.map_cons]
    simp [delEventOf, hst]

/-- runDeleteLoop_abort: a delete_object call that raises aborts the
remaining walk after the calls and events already produced. -/
theorem runDeleteLoop_abort (delSt : PStr → Option Nat) :
    ∀ (pre : List PStr) (k : PStr) (post : List PStr),
    (∀ j ∈ pre, (delSt j).isSome = true) → delSt k = none →
    runDeleteLoop delSt (pre ++ k :: post) =
      ⟨⟨pre.map StoreCall.deleteObj ++ [StoreCall.deleteObj k],
        pre.map (delEventOf delSt)⟩, true⟩ := by
  intro pre
  induction pre with
  | nil =>
    intro k post _ hk
    simp [runDeleteLoop, hk]
  | cons j rest ih =>
    intro k post h hk
    obtain ⟨st, hst⟩ := Option.isSome_iff_exists.mp (h j (by simp))
    have ihr := ih k post (fun i hi => h i (by simp [hi])) hk
    simp only [List.cons_append, runDeleteLoop, hst, ihr, List.map_cons]
    simp [delEventOf, hst, ihr]

/-- cpLoop_total: when every copy_object call returns a status, the copy
walk visits every descendant and routes each status, never aborting. -/
theorem cpLoop_total (copySt : PStr → PStr → Option Nat) (src dst : PStr) :
    ∀ ks : List PStr, (∀ k ∈ ks, (copySt k (destKey src dst k)).isSome = true) →
    cpLoop copySt src dst ks =
      ⟨⟨ks.map (fun k => StoreCall.copyObj k (destKey src dst k)),
        ks.map (cpEventOf copySt src dst)⟩, false⟩ := by
  intro ks
  induction ks with
  | nil => intro _; rfl
  | cons k rest ih =>
    intro h
    obtain ⟨st, hst⟩ := Option.isSome_iff_exists.mp (h k (by simp))
    have ihr := ih (fun j hj => h j (by simp [hj]))
    simp only [cpLoop, copy_single, hst, ihr, List.map_cons]
    simp [Trace.append, cpEventOf, hst]

/-- cpLoop_abort: a copy_object call that raises aborts the remaining copy
walk after the calls and events already produced. -/
theorem cpLoop_abort (copySt : PStr → PStr → Option Nat) (src dst : PStr) :
    ∀ (pre : List PStr) (k : PStr) (post : List PStr),
    (∀ j ∈ pre, (copySt j (destKey src dst j)).isSome = true) →
    copySt k (destKey src dst k) = none →
    cpLoop copySt src dst (pre ++ k :: post) =
      ⟨⟨pre.map (fun j => StoreCall.copyObj j (destKey src dst j)) ++
          [StoreCall.copyObj k (destKey src dst k)],
        pre.map (cpEventOf copySt src dst)⟩, true⟩ := by
  intro pre
  induction pre with
  | nil =>
    intro k post _ hk
    simp [cpLoop, copy_single, hk]
  | cons j rest ih =>
    intro k post h hk
    obtain ⟨st, hst⟩ := Option.isSome_iff_exists.mp (h j (by simp))
    have ihr := ih k post (fun i hi => h i (by simp [hi])) hk
    simp only [List.cons_append, cpLoop, copy_single, hst, ihr, List.map_cons]
    simp [Trace.append, cpEventOf, hst, ihr]

/-- mvLoop_total: when every copy_object and delete_object call returns a
status, the move walk visits every descendant pair (copy then delete per
pair) and routes each status, never aborting. -/
theorem mvLoop_total (copySt : PStr → PStr → Option Nat)
    (delSt : PStr → Option Nat) (src dst : PStr) :
    ∀ ks : List PStr,
    (∀ k ∈ ks, (copySt k (destKey src dst k)).isSome = true ∧
      (delSt k).isSome = true) →
    mvLoop copySt delSt src dst ks =
      ⟨⟨ks.flatMap (mvCallsOf src dst),
        ks.flatMap (mvEventsOf copySt delSt src dst)⟩, false⟩ := by
  intro ks
  induction ks with
  | nil => intro _; rfl
  | cons k rest ih =>
    intro h
    obtain ⟨st1, hst1⟩ := Option.isSome_iff_exists.mp (h k (by simp)).1
    obtain ⟨st2, hst2⟩ := Option.isSome_iff_exists.mp (h k (by simp)).2
    have ihr := ih (fun j hj => h j (by simp [hj]))
    simp only [mvLoop, move_single, hst1, hst2, ihr, List.flatMap_cons]
    simp [Trace.append, mvCallsOf, mvEventsOf, hst1, hst2]

/-- mvLoop_abort_copy: a copy_object call that raises aborts the remaining
move walk right after that copy call, before the delete of its source. -/
theorem mvLoop_abort_copy (copySt : PStr → PStr → Option Nat)
    (delSt : PStr → Option Nat) (src dst : PStr) :
    ∀ (pre : List PStr) (k : PStr) (post : List PStr),
    (∀ j ∈ pre, (copySt j (destKey src dst j)).isSome = true ∧
      (delSt j).isSome = true) →
    copySt k (destKey src dst k) = none →
    mvLoop copySt delSt src dst (pre ++ k :: post) =
      ⟨⟨pre.flatMap (mvCallsOf src dst) ++ [StoreCall.copyObj k (destKey src dst k)],
        pre.flatMap (mvEventsOf copySt delSt src dst)⟩, true⟩ := by
  intro pre
  induction pre with
  | nil =>
    intro k post _ hk
    simp [mvLoop, move_single, hk]
  | cons j rest ih =>
    intro k post h hk
    obtain ⟨st1, hst1⟩ := Option.isSome_iff_exists.mp (h j (by simp)).1
    obtain ⟨st2, hst2⟩ := Option.isSome_iff_exists.mp (h j (by simp)).2
    have ihr := ih k post (fun i hi => h i (by simp [hi])) hk
    simp only [List.cons_append, mvLoop, move_single, hst1, hst2, ihr,
      List.flatMap_cons]
    simp [Trace.append, mvCallsOf, mvEventsOf, hst1, hst2, ihr]

/-- mvLoop_abort_delete: a delete_object call that raises aborts the
remaining move walk after both store calls of its pair, with the copy
status of that pair already routed. -/
theorem mvLoop_abort_delete (copySt : PStr → PStr → Option Nat)
    (delSt : PStr → Option Nat) (src dst : PStr) :
    ∀ (pre : List PStr) (k : PStr) (post : List PStr) (st1 : Nat),
    (∀ j ∈ pre, (copySt j (destKey src dst j)).isSome = true ∧
      (delSt j).isSome = true) →
    copySt k (destKey src dst k) = some st1 → delSt k = none →
    mvLoop copySt delSt src dst (pre ++ k :: post) =
      ⟨⟨pre.flatMap (mvCallsOf src dst) ++ mvCallsOf src dst k,
        pre.flatMap (mvEventsOf copySt delSt src dst) ++
          (if 400 ≤ st1 then [CbEvent.error3 k (destKey src dst k)] else [])⟩,
        true⟩ := by
  intro pre
  induction pre with
  | nil =>
    intro k post st1 _ hk1 hk2
    simp [mvLoop, move_single, hk1, hk2, mvCallsOf]
  | cons j rest ih =>
    intro k post st1 h hk1 hk2
    obtain ⟨st1j, hst1⟩ := Option.isSome_iff_exists.mp (h j (by simp)).1
    obtain ⟨st2j, hst2⟩ := Option.isSome_iff_exists.mp (h j (by simp)).2
    have ihr := ih k post st1 (fun i hi => h i (by simp [hi])) hk1 hk2
    simp only [List.cons_append, mvLoop, move_single, hst1, hst2, ihr,
      List.flatMap_cons]
    simp [Trace.append, mvCallsOf, mvEventsOf, hst1, hst2, ihr]

end YuiOss


namespace YuiOss

/-! Claim theorems. -/

/-- C1 (corrected). For the remote key set {"x/a.txt", "x/b/", "x/b/c.txt"},
move("x/", "y/") issues a copy-then-delete pair for each of the three keys,
processing descendants in listing order; but since the parent prefix of the
top-level source "x/" is the bare separator, the code prepends the full
descendant key to the destination, so the destination keys are
{"y/x/a.txt", "y/x/b/", "y/x/b/c.txt"}: the moved directory is re-parented
under the destination with its own name preserved. -/
theorem C1_move_scenario :
    moveOp [S "x/a.txt", S "x/b/", S "x/b/c.txt"]
      (fun _ _ => some 200) (fun _ => some 200) (S "x/") (S "y/") =
    ⟨⟨[.copyObj (S "x/a.txt") (S "y/x/a.txt"), .deleteObj (S "x/a.txt"),
       .copyObj (S "x/b/") (S "y/x/b/"), .deleteObj (S "x/b/"),
       .copyObj (S "x/b/c.txt") (S "y/x/b/c.txt"), .deleteObj (S "x/b/c.txt")],
      [.success (S "move") (S "x/a.txt") (some (S "y/x/a.txt")),
       .success (S "move") (S "x/b/") (some (S "y/x/b/")),
       .success (S "move") (S "x/b/c.txt") (some (S "y/x/b/c.txt"))]⟩, none⟩ := by
  decide

/-- C1 counterexample: in the claimed scenario the copy destinations are
not {"y/a.txt", "y/b/", "y/b/c.txt"}; in particular "y/a.txt" is never a
destination. -/
theorem C1_counterexample :
    copyDests (moveOp [S "x/a.txt", S "x/b/", S "x/b/c.txt"]
      (fun _ _ => some 200) (fun _ => some 200) (S "x/") (S "y/")).1 =
      [S "y/x/a.txt", S "y/x/b/", S "y/x/b/c.txt"] ∧
    copyDests (moveOp [S "x/a.txt", S "x/b/", S "x/b/c.txt"]
      (fun _ _ => some 200) (fun _ => some 200) (S "x/") (S "y/")).1 ≠
      [S "y/a.txt", S "y/b/", S "y/b/c.txt"] ∧
    S "y/a.txt" ∉ copyDests (moveOp [S "x/a.txt", S "x/b/", S "x/b/c.txt"]
      (fun _ _ => some 200) (fun _ => some 200) (S "x/") (S "y/")).1 := by
  refine ⟨by decide, by decide, by decide⟩

/-- C2 (corrected). The cd operation validates its target purely
syntactically: it is rejected (error printed, root untouched) exactly when
the target is not directory-shaped according to is_dir, and any
directory-shaped target is accepted with the root recomputed by
segment-wise resolution, without any store query. -/
theorem C2_cd_syntactic_only :
    ∀ root path : PStr,
    (cd root [path] = CdResult.rejected ↔ is_dir path = false) ∧
    (is_dir path = true → cd root [path] = CdResult.ok (cdResolveRoot root path)) := by
  intro root path
  constructor
  · cases h : is_dir path <;> simp [cd, h]
  · intro h
    simp [cd, h]

/-- C2 witness: a concrete directory-shaped path is accepted. -/
theorem C2_witness :
    cd (S "") [S "x/"] = CdResult.ok (cdResolveRoot (S "") (S "x/")) :=
  (C2_cd_syntactic_only (S "") (S "x/")).2 (by decide)

/-- C2 counterexample: the key "foo/" does not exist in an empty store,
yet cd accepts it and changes the persisted root, refuting the claim that
a target not existing remotely as a directory is rejected with the root
unchanged. -/
theorem C2_counterexample :
    is_exist ([] : List PStr) (S "foo/") = false ∧
    cd (S "") [S "foo/"] = CdResult.ok (S "foo/") ∧
    (S "foo/" : PStr) ≠ S "" := by
  refine ⟨by decide, by decide, by decide⟩

/-- C3 (corrected). When the structural collapse of the stripped input
yields the empty path, os.path.normpath returns "." (never the empty
string), so norm_path returns "./" when the input indicated a directory
and "." otherwise — not the bare separator "/". -/
theorem C3_collapse_empty_dot (p : PStr)
    (h : normpath (pyStrip p) = dot) :
    norm_path p =
      (if endsWithSep (pyStrip p) || dirDesignator (pyStrip p) then S "./" else S ".") := by
  simp only [norm_path, h]
  rw [if_neg (by decide : ¬ (dot = ([] : PStr) ∨ dot = [sep]))]
  split <;> decide

/-- C3 witness: the empty string collapses to "." and norm_path returns
"./". -/
theorem C3_witness :
    normpath (pyStrip (S "")) = dot ∧
    norm_path (S "") =
      (if endsWithSep (pyStrip (S "")) || dirDesignator (pyStrip (S "")) then S "./" else S ".") :=
  ⟨by decide, C3_collapse_empty_dot (S "") (by decide)⟩

/-- C3 counterexample: norm_path of the empty string is "./", not the
bare separator claimed by the spec. -/
theorem C3_counterexample :
    norm_path (S "") ≠ S "/" ∧ norm_path (S "") = S "./" ∧
    norm_path (S ".") = S "./" ∧ norm_path (S "./") = S "./" ∧
    norm_path (S "a/..") = S "." := by
  refine ⟨by decide, by decide, by decide, by decide, by decide⟩

/-- C5 (corrected). In recursive download the local destination of a
descendant is os.path.normpath of the local root joined with the
descendant key's full parent path (all key segments but the last), not the
remainder after stripping the downloaded directory's own prefix.  For a
top-level remote directory the two coincide: in the scenario below every
fetched object lands exactly at the spec's prefix-stripped destination,
mirroring the remote sub-structure. -/
theorem C5_download_scenario :
    downloadOp [S "x/a.txt", S "x/b/", S "x/b/c.txt"] (fun _ _ => some 200)
      (S "x/") (S "/tmp/dst") [S "/tmp", S "/tmp/dst"] true =
    ⟨⟨[.mkdirCall (S "/tmp/dst/x/"),
       .getObj (S "x/a.txt") (S "/tmp/dst/x/a.txt"),
       .mkdirCall (S "/tmp/dst/x/b/"),
       .getObj (S "x/b/c.txt") (S "/tmp/dst/x/b/c.txt")],
      [.success (S "download") (S "x/") (some (S "/tmp/dst")),
       .success (S "download") (S "x/a.txt") (some (S "/tmp/dst/x")),
       .success (S "download") (S "x/b/") (some (S "/tmp/dst/x")),
       .success (S "download") (S "x/b/c.txt") (some (S "/tmp/dst/x/b"))]⟩,
     [S "/tmp", S "/tmp/dst", S "/tmp/dst/x", S "/tmp/dst/x/b"], none⟩ ∧
    S "/tmp/dst/x/a.txt" = spec_download_dest (S "/tmp/dst") (S "x/") (S "x/a.txt") ∧
    S "/tmp/dst/x/b/" = spec_download_dest (S "/tmp/dst") (S "x/") (S "x/b/") ∧
    S "/tmp/dst/x/b/c.txt" = spec_download_dest (S "/tmp/dst") (S "x/") (S "x/b/c.txt") := by
  refine ⟨by decide, by decide, by decide, by decide⟩

/-- C5 counterexample: for the remote root "a/x/" nested under a parent
directory, the first descendant "a/x/a.txt" is fetched to "/tmp/dst/a/x"
(the full remote parent path replicated under the local root, the file
not even keeping its own name), which differs from the spec's
prefix-stripped destination "/tmp/dst/x/a.txt"; the next descendant then
aborts the walk because os.mkdir("/tmp/dst/a/x/") has no parent. -/
theorem C5_counterexample :
    downloadOp [S "a/x/a.txt", S "a/x/b/", S "a/x/b/c.txt"] (fun _ _ => some 200)
      (S "a/x/") (S "/tmp/dst") [S "/tmp", S "/tmp/dst"] true =
    ⟨⟨[.mkdirCall (S "/tmp/dst/x/"),
       .getObj (S "a/x/a.txt") (S "/tmp/dst/a/x"),
       .mkdirCall (S "/tmp/dst/a/x/")],
      [.success (S "download") (S "a/x/") (some (S "/tmp/dst")),
       .success (S "download") (S "a/x/a.txt") (some (S "/tmp/dst/a/x"))]⟩,
     [S "/tmp", S "/tmp/dst", S "/tmp/dst/x"], some .downloadE⟩ ∧
    S "/tmp/dst/a/x" ≠ spec_download_dest (S "/tmp/dst") (S "a/x/") (S "a/x/a.txt") ∧
    spec_download_dest (S "/tmp/dst") (S "a/x/") (S "a/x/a.txt") = S "/tmp/dst/x/a.txt" := by
  refine ⟨by decide, by decide, by decide⟩

/-- C6 (corrected). In copy, when the source is a single object and the
destination is not directory-shaped (the destination key used literally),
the success callback IS invoked whenever the returned status is below 400
(with operation name "copy"), and the error callback is invoked when the
status is at least 400 — with only three arguments, omitting the
operation name. -/
theorem C6_copy_single_object_callbacks (store : List PStr)
    (copySt : PStr → PStr → Option Nat) (src dst : PStr) (st : Nat)
    (h1 : is_dir (norm_path src) = false) (h2 : is_dir (norm_path dst) = false)
    (h3 : copySt (norm_path src) (norm_path dst) = some st) :
    copyOp store copySt src dst =
      ⟨⟨[.copyObj (norm_path src) (norm_path dst)],
        [if 400 ≤ st then .error3 (norm_path src) (norm_path dst)
         else .success (S "copy") (norm_path src) (some (norm_path dst))]⟩, none⟩ := by
  simp [copyOp, h1, h2, copy_single, h3]

/-- C6 witness: a successful single-object copy with status 200 invokes
the success callback. -/
theorem C6_witness :
    copyOp [] (fun _ _ => some 200) (S "a.txt") (S "b.txt") =
      ⟨⟨[.copyObj (S "a.txt") (S "b.txt")],
        [.success (S "copy") (S "a.txt") (some (S "b.txt"))]⟩, none⟩ := by
  rw [C6_copy_single_object_callbacks [] (fun _ _ => some 200) (S "a.txt") (S "b.txt") 200
    (by decide) (by decide) rfl]
  decide

/-- C6 counterexample: a single-object copy to a non-directory destination
with status 200 does invoke the success callback, refuting the claim that
it is never invoked. -/
theorem C6_counterexample :
    CbEvent.success (S "copy") (S "a.txt") (some (S "b.txt")) ∈
      (copyOp [] (fun _ _ => some 200) (S "a.txt") (S "b.txt")).1.events := by
  decide

/-- C8 (confirmed). delete with recursive=false on a directory-shaped key
(in particular one denoting a non-empty directory) raises
YuiDeleteException and issues zero store delete calls. -/
theorem C8_delete_nonrecursive_dir (store : List PStr)
    (delSt : PStr → Option Nat) (remote : PStr)
    (hdir : is_dir (norm_path remote) = true)
    (hnonempty : listAll store (norm_path remote) ≠ []) :
    deleteOp store delSt remote false = ⟨⟨[], []⟩, some .deleteE⟩ := by
  simp [deleteOp, hdir]

/-- C8 witness: deleting the non-empty directory "x/" without the
recursive flag raises and issues no store call. -/
theorem C8_witness :
    deleteOp [S "x/a.txt"] (fun _ => some 200) (S "x/") false =
      ⟨⟨[], []⟩, some .deleteE⟩ :=
  C8_delete_nonrecursive_dir [S "x/a.txt"] (fun _ => some 200) (S "x/")
    (by decide) (by decide)

/-- C9 (confirmed). cd resolves ".." segment-wise against the current
root: from root "x/y/" it yields "x/", and from the store root (empty
root) it is a no-op with no underflow. -/
theorem C9_cd_dotdot :
    cd (S "x/y/") [S ".."] = CdResult.ok (S "x/") ∧
    cd (S "") [S ".."] = CdResult.ok (S "") := by
  refine ⟨by decide, by decide⟩

/-- C10 (confirmed). In move_single the success callback fires iff the
delete of the source returns a status below 400, independently of the
copy status; a pair whose copy failed (status at least 400) but whose
delete succeeded is reported to both the error callback (three-argument
form) and the success callback. -/
theorem C10_move_success_iff_delete_ok
    (copySt : PStr → PStr → Option Nat) (delSt : PStr → Option Nat)
    (old new : PStr) (st1 st2 : Nat)
    (h1 : copySt old new = some st1) (h2 : delSt old = some st2) :
    (CbEvent.success (S "move") old (some new) ∈
        (move_single copySt delSt old new).1.events ↔ st2 < 400) ∧
    (400 ≤ st1 → st2 < 400 →
      (move_single copySt delSt old new).1.events =
        [CbEvent.error3 old new, CbEvent.success (S "move") old (some new)]) := by
  constructor
  · by_cases hc : 400 ≤ st1 <;> by_cases hd : 400 ≤ st2 <;>
      simp [move_single, h1, h2, hc, hd] <;> omega
  · intro hc hd
    simp [move_single, h1, h2, hc, Nat.not_le.mpr hd]

/-- C10 witness: with copy status 500 and delete status 200 both the
three-argument error callback and the success callback fire. -/
theorem C10_witness :
    (CbEvent.success (S "move") (S "a") (some (S "b")) ∈
        (move_single (fun _ _ => some 500) (fun _ => some 200) (S "a") (S "b")).1.events ↔
      (200 : Nat) < 400) ∧
    (400 ≤ (500 : Nat) → (200 : Nat) < 400 →
      (move_single (fun _ _ => some 500) (fun _ => some 200) (S "a") (S "b")).1.events =
        [CbEvent.error3 (S "a") (S "b"),
         CbEvent.success (S "move") (S "a") (some (S "b"))]) :=
  C10_move_success_iff_delete_ok (fun _ _ => some 500) (fun _ => some 200)
    (S "a") (S "b") 500 200 rfl rfl

/-- C7 (confirmed). In the recursive per-object loops of delete, copy and
move, a store call that returns normally with status at least 400 is
routed to the error callback and the walk continues to the next object —
with statuses for every store call the whole listing is processed and no
exception is raised; only a store call that raises aborts the remaining
walk, cutting the trace at the raising call (for move this holds for both
the copy and the delete call of each pair). -/
theorem C7_status_errors_do_not_abort :
    (∀ (store : List PStr) (delSt : PStr → Option Nat) (remote : PStr),
      is_dir (norm_path remote) = true →
      (∀ k ∈ (listAll store (norm_path remote)).reverse, (delSt k).isSome = true) →
      deleteOp store delSt remote true =
        ⟨⟨((listAll store (norm_path remote)).reverse).map StoreCall.deleteObj,
          ((listAll store (norm_path remote)).reverse).map (delEventOf delSt)⟩, none⟩) ∧
    (∀ (delSt : PStr → Option Nat) (pre : List PStr) (k : PStr) (post : List PStr),
      (∀ j ∈ pre, (delSt j).isSome = true) → delSt k = none →
      runDeleteLoop delSt (pre ++ k :: post) =
        ⟨⟨pre.map StoreCall.deleteObj ++ [StoreCall.deleteObj k],
          pre.map (delEventOf delSt)⟩, true⟩) ∧
    (∀ (store : List PStr) (copySt : PStr → PStr → Option Nat) (src dst : PStr),
      is_dir (norm_path src) = true → is_dir (norm_path dst) = true →
      (norm_path src).isPrefixOf (norm_path dst) = false →
      (∀ k ∈ listAll store (norm_path src),
        (copySt k (destKey (norm_path src) (norm_path dst) k)).isSome = true) →
      copyOp store copySt src dst =
        ⟨⟨(listAll store (norm_path src)).map
            (fun k => StoreCall.copyObj k (destKey (norm_path src) (norm_path dst) k)),
          (listAll store (norm_path src)).map
            (cpEventOf copySt (norm_path src) (norm_path dst))⟩, none⟩) ∧
    (∀ (copySt : PStr → PStr → Option Nat) (src dst : PStr)
        (pre : List PStr) (k : PStr) (post : List PStr),
      (∀ j ∈ pre, (copySt j (destKey src dst j)).isSome = true) →
      copySt k (destKey src dst k) = none →
      cpLoop copySt src dst (pre ++ k :: post) =
        ⟨⟨pre.map (fun j => StoreCall.copyObj j (destKey src dst j)) ++
            [StoreCall.copyObj k (destKey src dst k)],
          pre.map (cpEventOf copySt src dst)⟩, true⟩) ∧
    (∀ (store : List PStr) (copySt : PStr → PStr → Option Nat)
        (delSt : PStr → Option Nat) (src dst : PStr),
      is_dir (norm_path src) = true → is_dir (norm_path dst) = true →
      (norm_path src).isPrefixOf (norm_path dst) = false →
      (∀ k ∈ listAll store (norm_path src),
        (copySt k (destKey (norm_path src) (norm_path dst) k)).isSome = true ∧
        (delSt k).isSome = true) →
      moveOp store copySt delSt src dst =
        ⟨⟨(listAll store (norm_path src)).flatMap
            (mvCallsOf (norm_path src) (norm_path dst)),
          (listAll store (norm_path src)).flatMap
            (mvEventsOf copySt delSt (norm_path src) (norm_path dst))⟩, none⟩) ∧
    (∀ (copySt : PStr → PStr → Option Nat) (delSt : PStr → Option Nat)
        (src dst : PStr) (pre : List PStr) (k : PStr) (post : List PStr),
      (∀ j ∈ pre, (copySt j (destKey src dst j)).isSome = true ∧
        (delSt j).isSome = true) →
      copySt k (destKey src dst k) = none →
      mvLoop copySt delSt src dst (pre ++ k :: post) =
        ⟨⟨pre.flatMap (mvCallsOf src dst) ++ [StoreCall.copyObj k (destKey src dst k)],
          pre.flatMap (mvEventsOf copySt delSt src dst)⟩, true⟩) ∧
    (∀ (copySt : PStr → PStr → Option Nat) (delSt : PStr → Option Nat)
        (src dst : PStr) (pre : List PStr) (k : PStr) (post : List PStr) (st1 : Nat),
      (∀ j ∈ pre, (copySt j (destKey src dst j)).isSome = true ∧
        (delSt j).isSome = true) →
      copySt k (destKey src dst k) = some st1 → delSt k = none →
      mvLoop copySt delSt src dst (pre ++ k :: post) =
        ⟨⟨pre.flatMap (mvCallsOf src dst) ++ mvCallsOf src dst k,
          pre.flatMap (mvEventsOf copySt delSt src dst) ++
            (if 400 ≤ st1 then [CbEvent.error3 k (destKey src dst k)] else [])⟩,
          true⟩) := by
  refine ⟨?_, runDeleteLoop_abort, ?_, cpLoop_abort, ?_, mvLoop_abort_copy,
    mvLoop_abort_delete⟩
  · intro store delSt remote hdir hsome
    simp only [deleteOp, hdir, if_true]
    rw [runDeleteLoop_total delSt _ hsome]
    simp
  · intro store copySt src dst hs hd hpre hsome
    simp only [copyOp, hs, hd, hpre, if_true, Bool.not_true, if_false]
    rw [cpLoop_total copySt _ _ _ hsome]
    simp
  · intro store copySt delSt src dst hs hd hpre hsome
    simp only [moveOp, hs, hd, hpre, if_true, Bool.not_true, if_false]
    rw [mvLoop_total copySt delSt _ _ _ hsome]
    simp

/-- C7 witness: deleting "x/" recursively over two objects that both
return status 500 routes both to the error callback, processes both, and
raises nothing; moving "x/" to "y/" with every copy returning 500 and
every delete returning 200 routes the failed copy of each pair to the
three-argument error callback, still deletes each source, and processes
the whole listing without raising. -/
theorem C7_witness :
    deleteOp [S "x/a.txt", S "x/b.txt"] (fun _ => some 500) (S "x/") true =
      ⟨⟨[.deleteObj (S "x/b.txt"), .deleteObj (S "x/a.txt")],
        [.error (S "delete") (S "x/b.txt") none,
         .error (S "delete") (S "x/a.txt") none]⟩, none⟩ ∧
    moveOp [S "x/a.txt", S "x/b.txt"] (fun _ _ => some 500) (fun _ => some 200)
        (S "x/") (S "y/") =
      ⟨⟨[.copyObj (S "x/a.txt") (S "y/x/a.txt"), .deleteObj (S "x/a.txt"),
         .copyObj (S "x/b.txt") (S "y/x/b.txt"), .deleteObj (S "x/b.txt")],
        [.error3 (S "x/a.txt") (S "y/x/a.txt"),
         .success (S "move") (S "x/a.txt") (some (S "y/x/a.txt")),
         .error3 (S "x/b.txt") (S "y/x/b.txt"),
         .success (S "move") (S "x/b.txt") (some (S "y/x/b.txt"))]⟩, none⟩ := by
  constructor
  · rw [C7_status_errors_do_not_abort.1 [S "x/a.txt", S "x/b.txt"] (fun _ => some 500)
      (S "x/") (by decide) (by intro k _; rfl)]
    decide
  · rw [C7_status_errors_do_not_abort.2.2.2.2.1 [S "x/a.txt", S "x/b.txt"]
      (fun _ _ => some 500) (fun _ => some 200) (S "x/") (S "y/")
      (by decide) (by decide) (by decide) (by intro k _; exact ⟨rfl, rfl⟩)]
    decide

end YuiOss

namespace YuiOss

/-! String lemmas for the normalization idempotence claim. -/

theorem splitAux_cons_sep (r : PStr) :
    splitAux sep (sep :: r) = ⟨[], (splitAux sep r).1 :: (splitAux sep r).2⟩ := by
  simp [splitAux]

theorem splitAux_nosep_append (seg : PStr) (hs : sep ∉ seg) (r : PStr) :
    splitAux sep (seg ++ r) = ⟨seg ++ (splitAux sep r).1, (splitAux sep r).2⟩ := by
  induction seg with
  | nil => simp
  | cons a s ih =>
    have ha : ¬ (a = sep) := by
      intro h
      exact hs (h ▸ List.mem_cons_self a s)
    have hs' : sep ∉ s := fun h => hs (List.mem_cons_of_mem _ h)
    simp [splitAux, ha, ih hs']

theorem splitAux_nosep (seg : PStr) (hs : sep ∉ seg) :
    splitAux sep seg = ⟨seg, []⟩ := by
  have h := splitAux_nosep_append seg hs []
  simpa [splitAux] using h

theorem pySplit_cons_sep (r : PStr) :
    pySplit sep (sep :: r) = [] :: pySplit sep r := by
  simp [pySplit, splitAux_cons_sep]

theorem pySplit_sepRep_append (k : Nat) (s : PStr) :
    pySplit sep (sepRep k ++ s) = List.replicate k [] ++ pySplit sep s := by
  induction k with
  | zero => simp [sepRep]
  | succ n ih =>
    have h1 : sepRep (n + 1) = sep :: sepRep n := rfl
    rw [h1, List.cons_append, pySplit_cons_sep, ih]
    rfl

theorem pySplit_joinSep :
    ∀ cs : List PStr, cs ≠ [] → (∀ c ∈ cs, sep ∉ c) →
    pySplit sep (joinSep cs) = cs
  | [], hne, _ => absurd rfl hne
  | [s], _, hclean => by
    simp [joinSep, pySplit, splitAux_nosep s (hclean s (by simp))]
  | s :: t :: r, _, hclean => by
    have hsep : sep ∉ s := hclean s (by simp)
    have ihr := pySplit_joinSep (t :: r) (by simp)
      (fun c hc => hclean c (List.mem_cons_of_mem _ hc))
    have hj : joinSep (s :: t :: r) = s ++ sep :: joinSep (t :: r) := rfl
    rw [hj]
    simp only [pySplit] at ihr ⊢
    rw [splitAux_nosep_append s hsep, splitAux_cons_sep]
    simp only [List.cons.injEq] at ihr
    simp [ihr.1, ihr.2]

theorem joinSep_append_nil_seg :
    ∀ cs : List PStr, cs ≠ [] → joinSep (cs ++ [[]]) = joinSep cs ++ [sep]
  | [], hne => absurd rfl hne
  | [s], _ => by simp [joinSep]
  | s :: t :: r, _ => by
    have ih := joinSep_append_nil_seg (t :: r) (by simp)
    have hj : joinSep (s :: t :: r) = s ++ sep :: joinSep (t :: r) := rfl
    have hj2 : joinSep ((s :: t :: r) ++ [[]]) = s ++ sep :: joinSep ((t :: r) ++ [[]]) := rfl
    rw [hj2, ih, hj]
    simp

theorem joinSep_ne_nil :
    ∀ cs : List PStr, cs ≠ [] → (∀ c ∈ cs, c ≠ []) → joinSep cs ≠ []
  | [], hne, _ => absurd rfl hne
  | [s], _, h => by simpa [joinSep] using h s (by simp)
  | s :: t :: r, _, _ => by
    have hj : joinSep (s :: t :: r) = s ++ sep :: joinSep (t :: r) := rfl
    rw [hj]
    simp

theorem joinSep_head_not_sep :
    ∀ (cs : List PStr) (s : PStr) (rest : List PStr), cs = s :: rest →
    s ≠ [] → sep ∉ s → ∃ x, (joinSep cs).head? = some x ∧ x ≠ sep := by
  intro cs s rest hcs hne hsep
  subst hcs
  obtain ⟨a, s', rfl⟩ : ∃ a s', s = a :: s' := by
    cases s with
    | nil => exact absurd rfl hne
    | cons a s' => exact ⟨a, s', rfl⟩
  have ha : a ≠ sep := by
    intro h
    exact hsep (h ▸ List.mem_cons_self a s')
  cases rest with
  | nil => exact ⟨a, rfl, ha⟩
  | cons t r =>
    have hj : joinSep ((a :: s') :: t :: r) = (a :: s') ++ sep :: joinSep (t :: r) := rfl
    rw [hj]
    exact ⟨a, rfl, ha⟩

theorem joinSep_getLast_not_sep :
    ∀ cs : List PStr, cs ≠ [] → (∀ c ∈ cs, CleanSeg c) →
    ∃ x, (joinSep cs).getLast? = some x ∧ x ≠ sep
  | [], hne, _ => absurd rfl hne
  | [s], _, hclean => by
    obtain ⟨hne, _, hsep⟩ := hclean s (by simp)
    obtain ⟨x, hx⟩ := Option.isSome_iff_exists.mp (List.getLast?_isSome.mpr hne)
    refine ⟨x, hx, ?_⟩
    intro hxs
    exact hsep (hxs ▸ List.mem_of_mem_getLast? hx)
  | s :: t :: r, _, hclean => by
    obtain ⟨x, hx, hxs⟩ := joinSep_getLast_not_sep (t :: r) (by simp)
      (fun c hc => hclean c (List.mem_cons_of_mem _ hc))
    have hne : joinSep (t :: r) ≠ [] :=
      joinSep_ne_nil (t :: r) (by simp)
        (fun c hc => (hclean c (List.mem_cons_of_mem _ hc)).1)
    have hj : joinSep (s :: t :: r) = s ++ sep :: joinSep (t :: r) := rfl
    rw [hj]
    refine ⟨x, ?_, hxs⟩
    rw [List.getLast?_append_of_ne_nil s (by simp),
        show sep :: joinSep (t :: r) = [sep] ++ joinSep (t :: r) from rfl,
        List.getLast?_append_of_ne_nil [sep] hne]
    exact hx

theorem splitAux_sepFree (s : PStr) :
    sep ∉ (splitAux sep s).1 ∧ ∀ c ∈ (splitAux sep s).2, sep ∉ c := by
  induction s with
  | nil => simp [splitAux]
  | cons a r ih =>
    by_cases ha : a = sep
    · subst ha
      rw [splitAux_cons_sep]
      refine ⟨by simp, ?_⟩
      intro c hc
      rcases List.mem_cons.mp hc with h | h
      · exact h ▸ ih.1
      · exact ih.2 c h
    · simp only [splitAux, if_neg ha]
      refine ⟨?_, ih.2⟩
      intro hmem
      rcases List.mem_cons.mp hmem with h | h
      · exact ha h.symm
      · exact ih.1 h

theorem pySplit_sepFree (s : PStr) : ∀ c ∈ pySplit sep s, sep ∉ c := by
  intro c hc
  rcases List.mem_cons.mp hc with h | h
  · exact h ▸ (splitAux_sepFree s).1
  · exact (splitAux_sepFree s).2 c h

end YuiOss

namespace YuiOss

/-! Collapse lemmas: invariants and fixed points of the component loop. -/

theorem collapseStep_skip (abs : Bool) (acc : List PStr) (comp : PStr)
    (h : comp = [] ∨ comp = dot) : collapseStep abs acc comp = acc := by
  simp [collapseStep, h]

theorem collapse_foldl_empties (abs : Bool) (k : Nat) (acc : List PStr) :
    List.foldl (collapseStep abs) acc (List.replicate k []) = acc := by
  induction k generalizing acc with
  | zero => rfl
  | succ n ih =>
    rw [List.replicate_succ, List.foldl_cons,
        collapseStep_skip abs acc [] (Or.inl rfl)]
    exact ih acc

theorem collapse_foldl_regular (abs : Bool) :
    ∀ l : List PStr, (∀ c ∈ l, c ≠ [] ∧ c ≠ dot ∧ c ≠ dotdot) →
    ∀ acc, List.foldl (collapseStep abs) acc l = acc ++ l := by
  intro l
  induction l with
  | nil => intro _ acc; simp
  | cons c r ih =>
    intro h acc
    obtain ⟨hne, hdot, hdd⟩ := h c (by simp)
    have hstep : collapseStep abs acc c = acc ++ [c] := by
      rw [collapseStep, if_neg (by tauto), if_pos (Or.inl hdd)]
    rw [List.foldl_cons, hstep, ih (fun d hd => h d (List.mem_cons_of_mem _ hd))]
    simp

theorem collapse_foldl_dotdots :
    ∀ (m j : Nat), List.foldl (collapseStep false) (List.replicate j dotdot)
      (List.replicate m dotdot) = List.replicate (j + m) dotdot := by
  intro m
  induction m with
  | zero => intro j; simp
  | succ n ih =>
    intro j
    have hstep : collapseStep false (List.replicate j dotdot) dotdot =
        List.replicate (j + 1) dotdot := by
      cases j with
      | zero => rw [collapseStep, if_neg (by decide), if_pos (Or.inr (Or.inl (by simp)))]; rfl
      | succ i =>
        have hlast : (List.replicate (i + 1) dotdot).getLast? = some dotdot := by
          rw [List.replicate_succ' i dotdot, List.getLast?_concat]
        rw [collapseStep, if_neg (by decide), if_pos (Or.inr (Or.inr hlast)),
            ← List.replicate_succ' (i + 1) dotdot]
    rw [List.replicate_succ, List.foldl_cons, hstep, ih (j + 1)]
    congr 1
    omega

theorem collapse_fixed (abs : Bool) (cs : List PStr) (h : GoodAcc abs cs) :
    List.foldl (collapseStep abs) [] cs = cs := by
  obtain ⟨hclean, ⟨m, rest, hrep, hrest⟩, habs⟩ := h
  have hrestreg : ∀ c ∈ rest, c ≠ [] ∧ c ≠ dot ∧ c ≠ dotdot := by
    intro c hc
    have hcl := hclean c (hrep ▸ List.mem_append_right _ hc)
    exact ⟨hcl.1, hcl.2.1, fun hdd => hrest (hdd ▸ hc)⟩
  cases abs with
  | false =>
    subst hrep
    rw [List.foldl_append]
    have h1 : List.foldl (collapseStep false) [] (List.replicate m dotdot) =
        List.replicate m dotdot := by
      have := collapse_foldl_dotdots m 0
      simpa using this
    rw [h1, collapse_foldl_regular false rest hrestreg]
  | true =>
    have hm : m = 0 := by
      by_contra hm
      apply habs rfl
      rw [hrep]
      exact List.mem_append_left _ (List.mem_replicate.mpr ⟨hm, rfl⟩)
    subst hm
    simp only [List.replicate_zero, List.nil_append] at hrep
    subst hrep
    have := collapse_foldl_regular true cs hrestreg []
    simpa using this

theorem collapseStep_good (abs : Bool) (acc : List PStr) (comp : PStr)
    (hg : GoodAcc abs acc) (hsep : sep ∉ comp) :
    GoodAcc abs (collapseStep abs acc comp) := by
  obtain ⟨hclean, ⟨m, rest, hrep, hrest⟩, habs⟩ := hg
  by_cases hskip : comp = [] ∨ comp = dot
  · rw [collapseStep_skip abs acc comp hskip]
    exact ⟨hclean, ⟨m, rest, hrep, hrest⟩, habs⟩
  · push_neg at hskip
    by_cases happ : comp ≠ dotdot ∨ (abs = false ∧ acc = []) ∨ acc.getLast? = some dotdot
    · rw [collapseStep, if_neg (by tauto), if_pos happ]
      have hcleancomp : CleanSeg comp := ⟨hskip.1, hskip.2, hsep⟩
      refine ⟨?_, ?_, ?_⟩
      · intro c hc
        rcases List.mem_append.mp hc with h | h
        · exact hclean c h
        · rw [List.mem_singleton.mp h]; exact hcleancomp
      · by_cases hdd : comp = dotdot
        · subst hdd
          rcases happ with h | h | h
          · exact absurd rfl h
          · rw [h.2]
            exact ⟨1, [], by simp, by simp⟩
          · have hrestnil : rest = [] := by
              by_contra hr
              rw [hrep, List.getLast?_append_of_ne_nil _ hr] at h
              exact hrest (List.mem_of_mem_getLast? h)
            subst hrestnil
            rw [hrep]
            refine ⟨m + 1, [], ?_, by simp⟩
            rw [List.replicate_succ' m dotdot]
            simp
        · exact ⟨m, rest ++ [comp], by rw [hrep]; simp, by
            intro hmem
            rcases List.mem_append.mp hmem with h | h
            · exact hrest h
            · exact hdd (List.mem_singleton.mp h).symm⟩
      · intro habst hmem
        rcases List.mem_append.mp hmem with h | h
        · exact habs habst h
        · have hdd := (List.mem_singleton.mp h).symm
          rcases happ with h2 | h2 | h2
          · exact h2 hdd
          · rw [habst] at h2
            exact absurd h2.1 (by decide)
          · exact habs habst (List.mem_of_mem_getLast? h2)
    · rw [collapseStep, if_neg (by tauto), if_neg happ]
      by_cases hne : acc ≠ []
      · rw [if_pos hne]
        refine ⟨?_, ?_, ?_⟩
        · intro c hc
          exact hclean c ((List.dropLast_sublist acc).mem hc)
        · cases hrestnil : rest with
          | nil =>
            subst hrestnil
            simp only [List.append_nil] at hrep
            subst hrep
            cases hm : m with
            | zero => exact absurd (by simp [hm]) hne
            | succ i =>
              refine ⟨i, [], ?_, by simp⟩
              rw [List.replicate_succ' i dotdot, List.dropLast_concat]
              simp
          | cons r0 rs =>
            subst hrestnil
            refine ⟨m, (r0 :: rs).dropLast, ?_, ?_⟩
            · rw [hrep, List.dropLast_append_of_ne_nil _ (by simp)]
            · intro hmem
              exact hrest ((List.dropLast_sublist _).mem hmem)
        · intro habst hmem
          exact habs habst ((List.dropLast_sublist acc).mem hmem)
      · rw [if_neg hne]
        exact ⟨hclean, ⟨m, rest, hrep, hrest⟩, habs⟩

theorem collapseComps_good (abs : Bool) (comps : List PStr)
    (h : ∀ c ∈ comps, sep ∉ c) : GoodAcc abs (collapseComps abs comps) := by
  have haux : ∀ (l : List PStr) (acc : List PStr), GoodAcc abs acc →
      (∀ c ∈ l, sep ∉ c) → GoodAcc abs (List.foldl (collapseStep abs) acc l) := by
    intro l
    induction l with
    | nil => intro acc hacc _; exact hacc
    | cons c r ih =>
      intro acc hacc hl
      rw [List.foldl_cons]
      exact ih _ (collapseStep_good abs acc c hacc (hl c (by simp)))
        (fun d hd => hl d (List.mem_cons_of_mem _ hd))
  exact haux comps [] ⟨by simp, ⟨0, [], by simp, by simp⟩, by simp⟩ h

end YuiOss

namespace YuiOss

/-! initialSlashes and trailing-separator lemmas. -/

theorem initialSlashes_le_two (s : PStr) : initialSlashes s ≤ 2 := by
  rw [initialSlashes]
  split
  · split <;> omega
  · omega

theorem sepRep_one_prefix_iff (s : PStr) :
    (sepRep 1).isPrefixOf s = true ↔ ∃ r, s = sep :: r := by
  rw [List.isPrefixOf_iff_prefix]
  constructor
  · intro h
    obtain ⟨r, hr⟩ := h
    exact ⟨r, hr.symm⟩
  · intro ⟨r, hr⟩
    exact hr ▸ ⟨r, rfl⟩

theorem initialSlashes_cons_of_ne (a : Char) (r : PStr) (ha : a ≠ sep) :
    initialSlashes (a :: r) = 0 := by
  rw [initialSlashes, if_neg]
  intro h
  obtain ⟨r2, hr2⟩ := (sepRep_one_prefix_iff (a :: r)).mp h
  injection hr2 with h1 h2
  exact ha h1

theorem initialSlashes_one_of_ne (a : Char) (r : PStr) (ha : a ≠ sep) :
    initialSlashes (sep :: a :: r) = 1 := by
  rw [initialSlashes, if_pos, if_neg]
  · intro h
    have h2 := h.1
    rw [List.isPrefixOf_iff_prefix, show sepRep 2 = sep :: [sep] from rfl,
        List.cons_prefix_cons] at h2
    have h3 := h2.2
    rw [show ([sep] : PStr) = sep :: [] from rfl, List.cons_prefix_cons] at h3
    exact ha h3.1.symm
  · rw [List.isPrefixOf_iff_prefix]
    exact ⟨a :: r, rfl⟩

theorem initialSlashes_two_of_ne (a : Char) (r : PStr) (ha : a ≠ sep) :
    initialSlashes (sep :: sep :: a :: r) = 2 := by
  rw [initialSlashes, if_pos, if_pos]
  · constructor
    · rw [List.isPrefixOf_iff_prefix]
      exact ⟨a :: r, rfl⟩
    · intro h
      rw [List.isPrefixOf_iff_prefix, show sepRep 3 = sep :: sep :: [sep] from rfl,
          List.cons_prefix_cons] at h
      have h2 := h.2
      rw [List.cons_prefix_cons] at h2
      have h3 := h2.2
      rw [show ([sep] : PStr) = sep :: [] from rfl, List.cons_prefix_cons] at h3
      exact ha h3.1.symm
  · rw [List.isPrefixOf_iff_prefix]
    exact ⟨sep :: a :: r, rfl⟩

theorem initialSlashes_two_nil : initialSlashes (sep :: [sep]) = 2 := by
  decide

theorem endsWithSep_concat_sep (x : PStr) : endsWithSep (x ++ [sep]) = true := by
  simp [endsWithSep, List.getLast?_concat]

end YuiOss

namespace YuiOss

/-! Shape lemmas: computing normpath on the outputs of norm_path. -/

theorem joinSep_head_clean (cs : List PStr) (hcse : cs ≠ [])
    (hclean : ∀ c ∈ cs, CleanSeg c) :
    ∃ x, (joinSep cs).head? = some x ∧ x ≠ sep := by
  cases cs with
  | nil => exact absurd rfl hcse
  | cons c0 cs' =>
    exact joinSep_head_not_sep (c0 :: cs') c0 cs' rfl
      (hclean c0 (by simp)).1 (hclean c0 (by simp)).2.2

theorem sepRep_join_ne_nil (k : Nat) (cs : List PStr)
    (hJne : joinSep cs ≠ []) : sepRep k ++ joinSep cs ≠ [] := by
  intro h
  exact hJne (List.append_eq_nil.mp h).2

theorem sepRep_join_ne_sepOne (k : Nat) (cs : List PStr) (hcse : cs ≠ [])
    (hclean : ∀ c ∈ cs, CleanSeg c) : sepRep k ++ joinSep cs ≠ [sep] := by
  obtain ⟨x0, hx0, hx0s⟩ := joinSep_head_clean cs hcse hclean
  have hJne := joinSep_ne_nil cs hcse (fun c hc => (hclean c hc).1)
  cases k with
  | zero =>
    intro h
    have h2 : joinSep cs = [sep] := by simpa [sepRep] using h
    rw [h2] at hx0
    simp only [List.head?_cons, Option.some.injEq] at hx0
    exact hx0s hx0.symm
  | succ i =>
    intro h
    have h2 : sep :: (sepRep i ++ joinSep cs) = [sep] := h
    injection h2 with _ h3
    exact hJne (List.append_eq_nil.mp h3).2

theorem initialSlashes_sepRep_append (k : Nat) (hk : k ≤ 2) (X : PStr)
    (x0 : Char) (hh : X.head? = some x0) (hx : x0 ≠ sep) :
    initialSlashes (sepRep k ++ X) = k := by
  have hX : X = x0 :: X.tail := List.eq_cons_of_mem_head? hh
  interval_cases k
  · rw [show sepRep 0 ++ X = X from by simp [sepRep], hX]
    exact initialSlashes_cons_of_ne x0 X.tail hx
  · rw [show sepRep 1 ++ X = sep :: X from rfl, hX]
    exact initialSlashes_one_of_ne x0 X.tail hx
  · rw [show sepRep 2 ++ X = sep :: sep :: X from rfl, hX]
    exact initialSlashes_two_of_ne x0 X.tail hx

theorem pySplit_output (k : Nat) (cs : List PStr) (hcse : cs ≠ [])
    (hsf : ∀ c ∈ cs, sep ∉ c) :
    pySplit sep (sepRep k ++ joinSep cs) = List.replicate k [] ++ cs := by
  rw [pySplit_sepRep_append, pySplit_joinSep cs hcse hsf]

theorem collapse_output (abs : Bool) (k : Nat) (cs : List PStr)
    (hgood : GoodAcc abs cs) :
    collapseComps abs (List.replicate k [] ++ cs) = cs := by
  rw [collapseComps, List.foldl_append, collapse_foldl_empties]
  exact collapse_fixed abs cs hgood

theorem collapse_output_trailing (abs : Bool) (k : Nat) (cs : List PStr)
    (hgood : GoodAcc abs cs) :
    collapseComps abs (List.replicate k [] ++ (cs ++ [[]])) = cs := by
  rw [collapseComps, List.foldl_append, collapse_foldl_empties, List.foldl_append,
      collapse_fixed abs cs hgood, List.foldl_cons,
      collapseStep_skip abs cs [] (Or.inl rfl)]
  rfl

theorem normpath_of_shape (k : Nat) (cs : List PStr) (t : PStr)
    (hk2 : k ≤ 2) (hcse : cs ≠ []) (hclean : ∀ c ∈ cs, CleanSeg c)
    (hdd : ∃ m rest, cs = List.replicate m dotdot ++ rest ∧ dotdot ∉ rest)
    (habs : k ≠ 0 → dotdot ∉ cs) (ht : t = [] ∨ t = [sep]) :
    normpath (sepRep k ++ joinSep cs ++ t) = sepRep k ++ joinSep cs := by
  have hJne := joinSep_ne_nil cs hcse (fun c hc => (hclean c hc).1)
  obtain ⟨x0, hx0, hx0s⟩ := joinSep_head_clean cs hcse hclean
  have hsf : ∀ c ∈ cs, sep ∉ c := fun c hc => (hclean c hc).2.2
  have hgood : GoodAcc (decide (k ≠ 0)) cs :=
    ⟨hclean, hdd, fun h => habs (of_decide_eq_true h)⟩
  have hOne : sepRep k ++ joinSep cs ≠ [] := sepRep_join_ne_nil k cs hJne
  rcases ht with rfl | rfl
  · rw [List.append_nil]
    have hk' : initialSlashes (sepRep k ++ joinSep cs) = k :=
      initialSlashes_sepRep_append k hk2 (joinSep cs) x0 hx0 hx0s
    have e1 := pySplit_output k cs hcse hsf
    simp only [normpath, if_neg hOne, hk', e1]
    rw [collapse_output (decide (k ≠ 0)) k cs hgood, if_neg hOne]
  · have hassoc : sepRep k ++ joinSep cs ++ [sep] = sepRep k ++ (joinSep cs ++ [sep]) :=
      List.append_assoc _ _ _
    have hOne2 : sepRep k ++ joinSep cs ++ [sep] ≠ [] := by simp
    have hk' : initialSlashes (sepRep k ++ joinSep cs ++ [sep]) = k := by
      rw [hassoc]
      exact initialSlashes_sepRep_append k hk2 (joinSep cs ++ [sep]) x0
        (by rw [List.head?_append_of_ne_nil _ hJne]; exact hx0) hx0s
    have e1 : pySplit sep (sepRep k ++ joinSep cs ++ [sep]) =
        List.replicate k [] ++ (cs ++ [[]]) := by
      rw [hassoc, ← joinSep_append_nil_seg cs hcse]
      exact pySplit_output k (cs ++ [[]]) (by simp)
        (by
          intro c hc
          rcases List.mem_append.mp hc with h | h
          · exact hsf c h
          · rw [List.mem_singleton.mp h]
            simp)
    simp only [normpath, if_neg hOne2, hk', e1]
    rw [collapse_output_trailing (decide (k ≠ 0)) k cs hgood, if_neg hOne]

end YuiOss

namespace YuiOss

/-! Characterization of the outputs of normpath and norm_path. -/

theorem normpath_cases (s : PStr) :
    normpath s = dot ∨ normpath s = [sep] ∨ normpath s = sepRep 2 ∨
    ∃ k cs, normpath s = sepRep k ++ joinSep cs ∧ k ≤ 2 ∧ cs ≠ [] ∧
      (∀ c ∈ cs, CleanSeg c) ∧
      (∃ m rest, cs = List.replicate m dotdot ++ rest ∧ dotdot ∉ rest) ∧
      (k ≠ 0 → dotdot ∉ cs) := by
  by_cases hs : s = []
  · left
    rw [hs]
    rfl
  have hnp : normpath s =
      (if sepRep (initialSlashes s) ++
          joinSep (collapseComps (decide (initialSlashes s ≠ 0)) (pySplit sep s)) = []
        then dot
        else sepRep (initialSlashes s) ++
          joinSep (collapseComps (decide (initialSlashes s ≠ 0)) (pySplit sep s))) := by
    rw [normpath, if_neg hs]
  have hgood := collapseComps_good (decide (initialSlashes s ≠ 0)) (pySplit sep s)
    (pySplit_sepFree s)
  have hk2 := initialSlashes_le_two s
  generalize hK : initialSlashes s = k at hnp hgood hk2
  generalize hCS : collapseComps (decide (k ≠ 0)) (pySplit sep s) = cs at hnp hgood
  by_cases hcse : cs = []
  · subst hcse
    rw [show joinSep ([] : List PStr) = [] from rfl, List.append_nil] at hnp
    interval_cases k
    · left
      rw [hnp]
      rfl
    · right; left
      rw [hnp]
      decide
    · right; right; left
      rw [hnp]
      decide
  · right; right; right
    refine ⟨k, cs, ?_, hk2, hcse, hgood.1, hgood.2.1,
      fun hk0 => hgood.2.2 (decide_eq_true hk0)⟩
    have hJne := joinSep_ne_nil cs hcse (fun c hc => (hgood.1 c hc).1)
    rw [hnp, if_neg (sepRep_join_ne_nil k cs hJne)]

theorem norm_path_cases (p : PStr) :
    norm_path p = [sep] ∨ norm_path p = dot ∨ norm_path p = dot ++ [sep] ∨
    norm_path p = sepRep 2 ∨ norm_path p = sepRep 3 ∨ NormOutShape (norm_path p) := by
  have hnp : norm_path p =
      (if normpath (pyStrip p) = [] ∨ normpath (pyStrip p) = [sep] then [sep]
       else if endsWithSep (pyStrip p) || dirDesignator (pyStrip p)
            then normpath (pyStrip p) ++ [sep] else normpath (pyStrip p)) := by
    rw [norm_path]
  by_cases h0 : normpath (pyStrip p) = [] ∨ normpath (pyStrip p) = [sep]
  · left
    rw [hnp, if_pos h0]
  rw [hnp, if_neg h0]
  rcases normpath_cases (pyStrip p) with hd | hd | hd |
    ⟨k, cs, hd, hk2, hcse, hclean, hrep, habs⟩
  · rw [hd]
    cases hb : (endsWithSep (pyStrip p) || dirDesignator (pyStrip p))
    · simp only [Bool.false_eq_true, if_false]
      exact Or.inr (Or.inl trivial)
    · simp only [if_true]
      exact Or.inr (Or.inr (Or.inl trivial))
  · exact absurd (Or.inr hd) h0
  · rw [hd]
    cases hb : (endsWithSep (pyStrip p) || dirDesignator (pyStrip p))
    · simp only [Bool.false_eq_true, if_false]
      exact Or.inr (Or.inr (Or.inr (Or.inl trivial)))
    · simp only [if_true]
      exact Or.inr (Or.inr (Or.inr (Or.inr (Or.inl (by decide)))))
  · rw [hd]
    cases hb : (endsWithSep (pyStrip p) || dirDesignator (pyStrip p))
    · simp only [Bool.false_eq_true, if_false]
      refine Or.inr (Or.inr (Or.inr (Or.inr (Or.inr
        ⟨k, cs, [], by simp, hk2, hcse, hclean, hrep, habs, Or.inl rfl⟩))))
    · simp only [if_true]
      refine Or.inr (Or.inr (Or.inr (Or.inr (Or.inr
        ⟨k, cs, [sep], rfl, hk2, hcse, hclean, hrep, habs, Or.inr rfl⟩))))

theorem norm_path_shape_fixed (k : Nat) (cs : List PStr) (t : PStr)
    (hk2 : k ≤ 2) (hcse : cs ≠ []) (hclean : ∀ c ∈ cs, CleanSeg c)
    (hdd : ∃ m rest, cs = List.replicate m dotdot ++ rest ∧ dotdot ∉ rest)
    (habs : k ≠ 0 → dotdot ∉ cs) (ht : t = [] ∨ t = [sep])
    (hstrip : pyStrip (sepRep k ++ joinSep cs ++ t) = sepRep k ++ joinSep cs ++ t)
    (hne2 : sepRep k ++ joinSep cs ++ t ≠ dot)
    (hne3 : sepRep k ++ joinSep cs ++ t ≠ dotdot) :
    norm_path (sepRep k ++ joinSep cs ++ t) = sepRep k ++ joinSep cs ++ t := by
  have hJne := joinSep_ne_nil cs hcse (fun c hc => (hclean c hc).1)
  have hnf := normpath_of_shape k cs t hk2 hcse hclean hdd habs ht
  have hOne : sepRep k ++ joinSep cs ++ t ≠ [] := by
    rcases ht with rfl | rfl
    · rw [List.append_nil]
      exact sepRep_join_ne_nil k cs hJne
    · simp
  have hmain : norm_path (sepRep k ++ joinSep cs ++ t) =
      (if normpath (pyStrip (sepRep k ++ joinSep cs ++ t)) = [] ∨
          normpath (pyStrip (sepRep k ++ joinSep cs ++ t)) = [sep] then [sep]
       else if endsWithSep (pyStrip (sepRep k ++ joinSep cs ++ t)) ||
               dirDesignator (pyStrip (sepRep k ++ joinSep cs ++ t))
            then normpath (pyStrip (sepRep k ++ joinSep cs ++ t)) ++ [sep]
            else normpath (pyStrip (sepRep k ++ joinSep cs ++ t))) := by
    rw [norm_path]
  have hdirdes : dirDesignator (sepRep k ++ joinSep cs ++ t) = false := by
    rw [dirDesignator, hstrip]
    simp only [Bool.or_eq_false_iff, decide_eq_false_iff_not]
    exact ⟨⟨hOne, hne2⟩, hne3⟩
  rw [hmain, hstrip, hnf,
      if_neg (not_or.mpr ⟨sepRep_join_ne_nil k cs hJne, sepRep_join_ne_sepOne k cs hcse hclean⟩)]
  rcases ht with rfl | rfl
  · obtain ⟨x, hx, hxs⟩ := joinSep_getLast_not_sep cs hcse hclean
    have hends : endsWithSep (sepRep k ++ joinSep cs ++ []) = false := by
      rw [List.append_nil]
      simp [endsWithSep, List.getLast?_append_of_ne_nil _ hJne, hx, hxs]
    rw [hends, hdirdes]
    simp
  · have hends : endsWithSep (sepRep k ++ joinSep cs ++ [sep]) = true :=
      endsWithSep_concat_sep _
    rw [hends]
    simp

/-- C4 (corrected). norm_path is idempotent at every input whose
normalized form is already whitespace-trimmed and is none of the four
degenerate outputs ".", "..", "//" and "///": re-normalizing any other
output returns it unchanged.  (At the excluded outputs idempotence
genuinely fails: see the counterexample.) -/
theorem C4_norm_path_idem (p : PStr)
    (h1 : pyStrip (norm_path p) = norm_path p)
    (h2 : norm_path p ≠ S ".") (h3 : norm_path p ≠ S "..")
    (h4 : norm_path p ≠ S "//") (h5 : norm_path p ≠ S "///") :
    norm_path (norm_path p) = norm_path p := by
  rcases norm_path_cases p with hO | hO | hO | hO | hO | hshape
  · rw [hO]
    decide
  · exact absurd (hO.trans (by decide)) h2
  · rw [hO]
    decide
  · exact absurd (hO.trans (by decide)) h4
  · exact absurd (hO.trans (by decide)) h5
  · obtain ⟨k, cs, t, hO, hk2, hcse, hclean, hdd, habs, ht⟩ := hshape
    rw [hO] at h1 h2 h3 ⊢
    exact norm_path_shape_fixed k cs t hk2 hcse hclean hdd habs ht h1
      (fun hh => h2 (hh.trans (by decide)))
      (fun hh => h3 (hh.trans (by decide)))

/-- C4 witness: at the input "a/b" all side conditions hold concretely and
re-normalization is the identity. -/
theorem C4_witness :
    pyStrip (norm_path (S "a/b")) = norm_path (S "a/b") ∧
    norm_path (S "a/b") ≠ S "." ∧ norm_path (S "a/b") ≠ S ".." ∧
    norm_path (S "a/b") ≠ S "//" ∧ norm_path (S "a/b") ≠ S "///" ∧
    norm_path (norm_path (S "a/b")) = norm_path (S "a/b") :=
  ⟨by decide, by decide, by decide, by decide, by decide,
    C4_norm_path_idem (S "a/b") (by decide) (by decide) (by decide) (by decide) (by decide)⟩

/-- C4 counterexample: idempotence fails as universally stated:
norm_path("a/..") is ".", but norm_path(".") is "./"; likewise
norm_path("//") is "///" while norm_path("///") is "/". -/
theorem C4_counterexample :
    norm_path (norm_path (S "a/..")) ≠ norm_path (S "a/..") ∧
    norm_path (S "a/..") = S "." ∧
    norm_path (norm_path (S "a/..")) = S "./" ∧
    norm_path (norm_path (S "//")) ≠ norm_path (S "//") := by
  refine ⟨by decide, by decide, by decide, by decide⟩

end YuiOss
